import Mathlib

/-!
Verification of `src/ml_pipeline/preprocess.py` (the `sentinel` repository).

The repository is a single pure string-transformation utility: a module-level
stop-word list `STOP_WORDS` and one function `clean_text(text)` that
lowercases its input, deletes ASCII punctuation, splits on whitespace runs,
drops stop words and rejoins the surviving tokens with single spaces.

We embed strings as `List Char` (a Python `str` is a sequence of code points;
`clean_text` touches only ASCII-relevant behaviour, and the spec states ASCII
case folding suffices).  A possibly-absent (`None`) argument is embedded as
`Option (List Char)`: Python's `if not text` guard fires exactly on `None`
and the empty string.
-/

/-- Python's `string.punctuation`: the 32 ASCII punctuation characters,
i.e. the code points 33–47, 58–64, 91–96 and 123–126. -/
def isPunct (c : Char) : Bool :=
  (33 ≤ c.toNat && c.toNat ≤ 47) || (58 ≤ c.toNat && c.toNat ≤ 64) ||
  (91 ≤ c.toNat && c.toNat ≤ 96) || (123 ≤ c.toNat && c.toNat ≤ 126)

/-- The whitespace characters recognised by Python's `str.split()` and
`str.strip()` on ASCII input: space, tab, newline, carriage return,
vertical tab and form feed. -/
def isSpace (c : Char) : Bool :=
  c.toNat = 32 || c.toNat = 9 || c.toNat = 10 ||
  c.toNat = 13 || c.toNat = 11 || c.toNat = 12

/-- ASCII uppercase letter (code points 65–90). -/
def isUpperAscii (c : Char) : Bool :=
  65 ≤ c.toNat && c.toNat ≤ 90

/-- One character of Python's `str.lower()` restricted to ASCII case
folding (the spec: "ASCII-sufficient; no locale-sensitive folding"). -/
def lowerChar (c : Char) : Char :=
  if 65 ≤ c.toNat ∧ c.toNat ≤ 90 then Char.ofNat (c.toNat + 32) else c

/-- `text.lower()` on the embedded string. -/
def lower (s : List Char) : List Char := s.map lowerChar

/-- `re.sub(f"[{re.escape(string.punctuation)}]", "", text)`: every
occurrence of a punctuation character is replaced by the empty string,
i.e. deleted; all other characters are kept in order. -/
def removePunct : List Char → List Char
  | [] => []
  | c :: cs => if isPunct c then removePunct cs else c :: removePunct cs

/-- Accumulator-style worker for `text.split()`: `acc` holds the characters
of the token currently being read, in reverse order. -/
def splitWsAux : List Char → List Char → List (List Char)
  | [], acc => if acc = [] then [] else [acc.reverse]
  | c :: cs, acc =>
    if isSpace c then
      if acc = [] then splitWsAux cs [] else acc.reverse :: splitWsAux cs []
    else splitWsAux cs (c :: acc)

/-- Python's `text.split()` with no separator: split on runs of whitespace,
discarding empty tokens. -/
def splitWs (s : List Char) : List (List Char) := splitWsAux s []

/-- Python's `" ".join(ws)`: interleave a single space between the words. -/
def joinWords : List (List Char) → List Char
  | [] => []
  | [w] => w
  | w :: ws => w ++ ' ' :: joinWords ws

/-- Python's `str.strip()`: drop leading and trailing whitespace. -/
def stripWs (s : List Char) : List Char :=
  (((s.dropWhile isSpace).reverse.dropWhile isSpace)).reverse

/-- The module-level list
`STOP_WORDS = ["help", "i", ..., "are"]` from `preprocess.py`. -/
def STOP_WORDS : List String :=
  ["help", "i", "think", "got", "my", "me", "the", "a", "an",
   "please", "somebody", "do", "does", "is", "am", "are"]

/-- The stop words as embedded strings. -/
def stopWordsL : List (List Char) := STOP_WORDS.map String.data

/-- `clean_text` from `preprocess.py`.  `none` stands for Python `None`
(an absent argument); `if not text` is true exactly on `None` and `""`.
The remaining pipeline is: lowercase, delete punctuation via `re.sub`,
`split()`, drop stop words, `" ".join(...)`, `.strip()`. -/
def clean_text : Option (List Char) → List Char
  | none => []
  | some t =>
    if t = [] then []
    else
      stripWs (joinWords
        ((splitWs (removePunct (lower t))).filter
          (fun w => !(stopWordsL.contains w))))

/-- The reference pipeline exactly as the spec words it (steps 2–6 of §4.1,
used by claim C1): lowercase the whole string, delete every ASCII
punctuation character, split on runs of whitespace discarding empty tokens,
drop every stop-word token, and join the remainder with single spaces.
The spec's step 7 (`strip`) is not part of this reference pipeline as the
claim states it. -/
def cleanSpecPipeline (t : List Char) : List Char :=
  joinWords
    (((splitWs ((lower t).filter (fun c => !(isPunct c)))).filter
      (fun w => !(stopWordsL.contains w))))

/-! ### Character-level lemmas -/

theorem toNat_lowerChar (c : Char) :
    (lowerChar c).toNat =
      if 65 ≤ c.toNat ∧ c.toNat ≤ 90 then c.toNat + 32 else c.toNat := by
  unfold lowerChar
  split
  · rename_i h
    have hv : (c.toNat + 32).isValidChar := Or.inl (by omega)
    simp only [Char.ofNat, dif_pos hv]
    rfl
  · rfl

theorem isUpperAscii_lowerChar (c : Char) : isUpperAscii (lowerChar c) = false := by
  simp only [isUpperAscii, toNat_lowerChar]
  split <;> rename_i h
  · simp only [Bool.and_eq_false_iff, decide_eq_false_iff_not, not_le]
    omega
  · simp only [Bool.and_eq_false_iff, decide_eq_false_iff_not, not_le]
    omega

theorem lowerChar_eq_self (c : Char) (h : isUpperAscii c = false) : lowerChar c = c := by
  unfold lowerChar
  rw [if_neg]
  intro hc
  simp only [isUpperAscii, Bool.and_eq_false_iff,
    decide_eq_false_iff_not, not_le] at h
  omega

theorem isSpace_lowerChar (c : Char) : isSpace (lowerChar c) = isSpace c := by
  by_cases h : 65 ≤ c.toNat ∧ c.toNat ≤ 90
  · have h1 : isSpace (lowerChar c) = false := by
      simp only [isSpace, toNat_lowerChar, if_pos h,
        Bool.or_eq_false_iff, decide_eq_false_iff_not]
      omega
    have h2 : isSpace c = false := by
      simp only [isSpace, Bool.or_eq_false_iff, decide_eq_false_iff_not]
      omega
    rw [h1, h2]
  · unfold lowerChar
    rw [if_neg h]

theorem isPunct_lowerChar (c : Char) : isPunct (lowerChar c) = isPunct c := by
  by_cases h : 65 ≤ c.toNat ∧ c.toNat ≤ 90
  · have h1 : isPunct (lowerChar c) = false := by
      simp only [isPunct, toNat_lowerChar, if_pos h, Bool.or_eq_false_iff,
        Bool.and_eq_false_iff, decide_eq_false_iff_not, not_le]
      omega
    have h2 : isPunct c = false := by
      simp only [isPunct, Bool.or_eq_false_iff,
        Bool.and_eq_false_iff, decide_eq_false_iff_not, not_le]
      omega
    rw [h1, h2]
  · unfold lowerChar
    rw [if_neg h]

theorem not_space_of_mem_lower (s : List Char) (c : Char) (hc : c ∈ lower s)
    (h : ∀ d ∈ s, isSpace d = false) : isSpace c = false := by
  simp only [lower, List.mem_map] at hc
  obtain ⟨d, hd, rfl⟩ := hc
  rw [isSpace_lowerChar]
  exact h d hd

theorem isUpperAscii_of_mem_lower (s : List Char) (c : Char) (hc : c ∈ lower s) :
    isUpperAscii c = false := by
  simp only [lower, List.mem_map] at hc
  obtain ⟨d, _, rfl⟩ := hc
  exact isUpperAscii_lowerChar d

theorem lower_eq_self (s : List Char) (h : ∀ c ∈ s, isUpperAscii c = false) :
    lower s = s := by
  induction s with
  | nil => rfl
  | cons a t ih =>
    have ih2 := ih (fun c hc => h c (List.mem_cons_of_mem a hc))
    simp only [lower, List.map_cons] at ih2 ⊢
    rw [lowerChar_eq_self a (h a (List.mem_cons_self a t)), ih2]

/-! ### `removePunct` lemmas -/

theorem mem_removePunct (s : List Char) (c : Char) :
    c ∈ removePunct s ↔ c ∈ s ∧ isPunct c = false := by
  induction s with
  | nil => simp [removePunct]
  | cons a t ih =>
    by_cases ha : isPunct a = true
    · simp only [removePunct, if_pos ha, ih, List.mem_cons]
      constructor
      · rintro ⟨h1, h2⟩; exact ⟨Or.inr h1, h2⟩
      · rintro ⟨h1 | h1, h2⟩
        · subst h1; rw [ha] at h2; cases h2
        · exact ⟨h1, h2⟩
    · rw [Bool.not_eq_true] at ha
      simp only [removePunct, ha, Bool.false_eq_true, if_false, List.mem_cons, ih]
      constructor
      · rintro (rfl | ⟨h1, h2⟩)
        · exact ⟨Or.inl rfl, ha⟩
        · exact ⟨Or.inr h1, h2⟩
      · rintro ⟨rfl | h1, h2⟩
        · exact Or.inl rfl
        · exact Or.inr ⟨h1, h2⟩

theorem removePunct_eq_filter (s : List Char) :
    removePunct s = s.filter (fun c => !(isPunct c)) := by
  induction s with
  | nil => rfl
  | cons a t ih =>
    by_cases ha : isPunct a = true
    · simp [removePunct, ha, List.filter_cons, ih]
    · rw [Bool.not_eq_true] at ha
      simp [removePunct, ha, List.filter_cons, ih]

theorem removePunct_eq_self (s : List Char) (h : ∀ c ∈ s, isPunct c = false) :
    removePunct s = s := by
  rw [removePunct_eq_filter, List.filter_eq_self]
  intro c hc
  simp [h c hc]

theorem removePunct_append_punct (s₁ s₂ : List Char) (c : Char)
    (hc : isPunct c = true) :
    removePunct (s₁ ++ c :: s₂) = removePunct (s₁ ++ s₂) := by
  induction s₁ with
  | nil => simp [removePunct, hc]
  | cons a t ih =>
    simp only [List.cons_append, removePunct, List.append_eq]
    rw [ih]

/-! ### Option `head?` and `getLast?` helpers -/

theorem mem_of_mem_head? (l : List Char) (a : Char) (h : a ∈ l.head?) : a ∈ l := by
  cases l with
  | nil => simp at h
  | cons c t =>
    simp only [Option.mem_def, List.head?_cons] at h
    injection h with h2
    exact h2 ▸ List.mem_cons_self c t

theorem mem_of_mem_getLast? (l : List Char) (a : Char) (h : a ∈ l.getLast?) :
    a ∈ l := by
  rw [← List.head?_reverse l] at h
  exact List.mem_reverse.mp (mem_of_mem_head? l.reverse a h)

/-! ### `splitWs` lemmas -/

theorem splitWsAux_good (s : List Char) :
    ∀ acc, (∀ c ∈ acc, isSpace c = false) →
    ∀ w ∈ splitWsAux s acc, w ≠ [] ∧ ∀ c ∈ w, isSpace c = false := by
  induction s with
  | nil =>
    intro acc hacc w hw
    simp only [splitWsAux] at hw
    split at hw
    · simp at hw
    · rename_i hne
      simp only [List.mem_singleton] at hw
      subst hw
      refine ⟨by simpa using hne, ?_⟩
      intro c hc
      exact hacc c (List.mem_reverse.mp hc)
  | cons a t ih =>
    intro acc hacc w hw
    simp only [splitWsAux] at hw
    split at hw
    · split at hw
      · exact ih [] (by simp) w hw
      · rename_i hsp hne
        rcases List.mem_cons.mp hw with rfl | hw2
        · refine ⟨by simpa using hne, ?_⟩
          intro c hc
          exact hacc c (List.mem_reverse.mp hc)
        · exact ih [] (by simp) w hw2
    · rename_i hsp
      refine ih (a :: acc) ?_ w hw
      intro c hc
      rcases List.mem_cons.mp hc with rfl | hc2
      · simpa using hsp
      · exact hacc c hc2

theorem mem_of_mem_splitWsAux (s : List Char) :
    ∀ acc w, w ∈ splitWsAux s acc → ∀ c ∈ w, c ∈ s ∨ c ∈ acc := by
  induction s with
  | nil =>
    intro acc w hw c hc
    simp only [splitWsAux] at hw
    split at hw
    · simp at hw
    · simp only [List.mem_singleton] at hw
      subst hw
      exact Or.inr (List.mem_reverse.mp hc)
  | cons a t ih =>
    intro acc w hw c hc
    simp only [splitWsAux] at hw
    split at hw
    · split at hw
      · rcases ih [] w hw c hc with h | h
        · exact Or.inl (List.mem_cons_of_mem a h)
        · simp at h
      · rcases List.mem_cons.mp hw with rfl | hw2
        · exact Or.inr (List.mem_reverse.mp hc)
        · rcases ih [] w hw2 c hc with h | h
          · exact Or.inl (List.mem_cons_of_mem a h)
          · simp at h
    · rcases ih (a :: acc) w hw c hc with h | h
      · exact Or.inl (List.mem_cons_of_mem a h)
      · rcases List.mem_cons.mp h with rfl | h2
        · exact Or.inl (List.mem_cons_self _ _)
        · exact Or.inr h2

theorem splitWsAux_append (w : List Char) :
    ∀ s acc, (∀ c ∈ w, isSpace c = false) →
    splitWsAux (w ++ s) acc = splitWsAux s (w.reverse ++ acc) := by
  induction w with
  | nil => intro s acc _; simp
  | cons a t ih =>
    intro s acc h
    have ha : isSpace a = false := h a (List.mem_cons_self a t)
    simp only [List.cons_append, splitWsAux, ha, Bool.false_eq_true, if_false,
      List.append_eq]
    rw [ih s (a :: acc) (fun c hc => h c (List.mem_cons_of_mem a hc))]
    rw [List.reverse_cons, List.append_assoc, List.singleton_append]

theorem splitWsAux_all_space (s : List Char) (h : ∀ c ∈ s, isSpace c = true) :
    splitWsAux s [] = [] := by
  induction s with
  | nil => rfl
  | cons a t ih =>
    have ha := h a (List.mem_cons_self a t)
    simp only [splitWsAux, ha, if_true]
    exact ih (fun c hc => h c (List.mem_cons_of_mem a hc))

/-! ### `joinWords` lemmas -/

theorem joinWords_ne_nil (v : List Char) (vs : List (List Char)) (hv : v ≠ []) :
    joinWords (v :: vs) ≠ [] := by
  cases vs with
  | nil => simpa using hv
  | cons u us =>
    show v ++ ' ' :: joinWords (u :: us) ≠ []
    simp

theorem mem_joinWords : ∀ (ws : List (List Char)) (c : Char),
    c ∈ joinWords ws → c = ' ' ∨ ∃ w, w ∈ ws ∧ c ∈ w
  | [], c, hc => by simp [joinWords] at hc
  | [w], c, hc => Or.inr ⟨w, List.mem_cons_self _ _, hc⟩
  | w :: v :: vs, c, hc => by
    have hc2 : c ∈ w ++ ' ' :: joinWords (v :: vs) := hc
    rcases List.mem_append.mp hc2 with h | h
    · exact Or.inr ⟨w, List.mem_cons_self _ _, h⟩
    · rcases List.mem_cons.mp h with rfl | h2
      · exact Or.inl rfl
      · rcases mem_joinWords (v :: vs) c h2 with h3 | ⟨u, hu, hcu⟩
        · exact Or.inl h3
        · exact Or.inr ⟨u, List.mem_cons_of_mem w hu, hcu⟩

theorem head?_joinWords : ∀ ws : List (List Char),
    (∀ w ∈ ws, w ≠ [] ∧ ∀ c ∈ w, isSpace c = false) →
    ∀ a ∈ (joinWords ws).head?, isSpace a = false
  | [], _, a, ha => by simp [joinWords] at ha
  | [w], h, a, ha => by
    have hw := h w (List.mem_cons_self _ _)
    have ha2 : a ∈ w.head? := ha
    exact hw.2 a (mem_of_mem_head? w a ha2)
  | w :: v :: vs, h, a, ha => by
    have hw := h w (List.mem_cons_self _ _)
    cases w with
    | nil => exact absurd rfl hw.1
    | cons d t =>
      have he : (joinWords ((d :: t) :: v :: vs)).head? = some d := rfl
      rw [Option.mem_def, he] at ha
      injection ha with ha2
      exact ha2 ▸ hw.2 d (List.mem_cons_self d t)

theorem getLast?_joinWords : ∀ ws : List (List Char),
    (∀ w ∈ ws, w ≠ [] ∧ ∀ c ∈ w, isSpace c = false) →
    ∀ a ∈ (joinWords ws).getLast?, isSpace a = false
  | [], _, a, ha => by simp [joinWords] at ha
  | [w], h, a, ha => by
    have hw := h w (List.mem_cons_self _ _)
    have ha2 : a ∈ w.getLast? := ha
    exact hw.2 a (mem_of_mem_getLast? w a ha2)
  | w :: v :: vs, h, a, ha => by
    have hrest : ∀ u ∈ v :: vs, u ≠ [] ∧ ∀ c ∈ u, isSpace c = false :=
      fun u hu => h u (List.mem_cons_of_mem w hu)
    have hJ : joinWords (v :: vs) ≠ [] :=
      joinWords_ne_nil v vs (hrest v (List.mem_cons_self _ _)).1
    have he : (joinWords (w :: v :: vs)).getLast? =
        (joinWords (v :: vs)).getLast? := by
      show (w ++ ' ' :: joinWords (v :: vs)).getLast? = _
      rw [List.getLast?_append_of_ne_nil w (by simp)]
      show (([' '] ++ joinWords (v :: vs)).getLast?) = _
      rw [List.getLast?_append_of_ne_nil [' '] hJ]
    rw [Option.mem_def, he, ← Option.mem_def] at ha
    exact getLast?_joinWords (v :: vs) hrest a ha

theorem chain'_no_space (s : List Char) (h : ∀ c ∈ s, isSpace c = false) :
    List.Chain' (fun a b => ¬(a = ' ' ∧ b = ' ')) s := by
  induction s with
  | nil => exact List.chain'_nil
  | cons a t ih =>
    rw [List.chain'_cons']
    refine ⟨?_, ih (fun c hc => h c (List.mem_cons_of_mem a hc))⟩
    intro y _ hcon
    have ha := h a (List.mem_cons_self a t)
    rw [hcon.1] at ha
    exact Bool.false_ne_true (ha ▸ (by decide : isSpace ' ' = true))

theorem chain'_joinWords : ∀ ws : List (List Char),
    (∀ w ∈ ws, w ≠ [] ∧ ∀ c ∈ w, isSpace c = false) →
    List.Chain' (fun a b => ¬(a = ' ' ∧ b = ' ')) (joinWords ws)
  | [], _ => List.chain'_nil
  | [w], h => chain'_no_space w (h w (List.mem_cons_self _ _)).2
  | w :: v :: vs, h => by
    have hw := h w (List.mem_cons_self _ _)
    have hrest : ∀ u ∈ v :: vs, u ≠ [] ∧ ∀ c ∈ u, isSpace c = false :=
      fun u hu => h u (List.mem_cons_of_mem w hu)
    show List.Chain' _ (w ++ ' ' :: joinWords (v :: vs))
    apply List.Chain'.append
    · exact chain'_no_space w hw.2
    · rw [List.chain'_cons']
      constructor
      · intro y hy hcon
        have hhead := head?_joinWords (v :: vs) hrest y hy
        rw [hcon.2] at hhead
        exact Bool.false_ne_true (hhead ▸ (by decide : isSpace ' ' = true))
      · exact chain'_joinWords (v :: vs) hrest
    · intro x hx y _ hcon
      have hxw : x ∈ w := mem_of_mem_getLast? w x hx
      have hxs := hw.2 x hxw
      rw [hcon.1] at hxs
      exact Bool.false_ne_true (hxs ▸ (by decide : isSpace ' ' = true))

/-! ### Split-join round trip and `stripWs` -/

theorem splitWs_join : ∀ ws : List (List Char),
    (∀ w ∈ ws, w ≠ [] ∧ ∀ c ∈ w, isSpace c = false) →
    splitWs (joinWords ws) = ws
  | [], _ => rfl
  | [w], h => by
    have hw := h w (List.mem_cons_self _ _)
    show splitWsAux (joinWords [w]) [] = [w]
    have he : joinWords [w] = w ++ [] := by simp [joinWords]
    rw [he, splitWsAux_append w [] [] hw.2]
    simp only [splitWsAux, List.append_nil]
    rw [if_neg (by simpa using hw.1)]
    simp
  | w :: v :: vs, h => by
    have hw := h w (List.mem_cons_self _ _)
    have hrest : ∀ u ∈ v :: vs, u ≠ [] ∧ ∀ c ∈ u, isSpace c = false :=
      fun u hu => h u (List.mem_cons_of_mem w hu)
    show splitWsAux (w ++ ' ' :: joinWords (v :: vs)) [] = w :: v :: vs
    rw [splitWsAux_append w (' ' :: joinWords (v :: vs)) [] hw.2]
    have hsp : isSpace ' ' = true := by decide
    simp only [splitWsAux, hsp, if_true, List.append_nil]
    rw [if_neg (by simpa using hw.1)]
    rw [List.reverse_reverse]
    have hind := splitWs_join (v :: vs) hrest
    unfold splitWs at hind
    rw [hind]

theorem dropWhile_eq_self_of_head (s : List Char)
    (h : ∀ a ∈ s.head?, isSpace a = false) : s.dropWhile isSpace = s := by
  cases s with
  | nil => rfl
  | cons c t =>
    have hc : isSpace c = false := h c rfl
    simp [List.dropWhile_cons, hc]

theorem stripWs_eq_self (s : List Char)
    (h1 : ∀ a ∈ s.head?, isSpace a = false)
    (h2 : ∀ a ∈ s.getLast?, isSpace a = false) : stripWs s = s := by
  unfold stripWs
  rw [dropWhile_eq_self_of_head s h1]
  rw [dropWhile_eq_self_of_head s.reverse ?_]
  · exact List.reverse_reverse s
  · intro a ha
    rw [Option.mem_def, List.head?_reverse, ← Option.mem_def] at ha
    exact h2 a ha

/-! ### Shape of the output of `clean_text` -/

/-- The token list that `clean_text` joins on a non-empty input. -/
def cleanTokens (t : List Char) : List (List Char) :=
  (splitWs (removePunct (lower t))).filter (fun w => !(stopWordsL.contains w))

theorem cleanTokens_good (t : List Char) :
    ∀ w ∈ cleanTokens t,
      (w ≠ [] ∧ ∀ c ∈ w,
        isSpace c = false ∧ isPunct c = false ∧ isUpperAscii c = false) ∧
      stopWordsL.contains w = false := by
  intro w hw
  simp only [cleanTokens, List.mem_filter, Bool.not_eq_true'] at hw
  obtain ⟨hw1, hw2⟩ := hw
  have hgood := splitWsAux_good (removePunct (lower t)) [] (by simp) w hw1
  refine ⟨⟨hgood.1, ?_⟩, hw2⟩
  intro c hc
  have hmem : c ∈ removePunct (lower t) ∨ c ∈ ([] : List Char) :=
    mem_of_mem_splitWsAux (removePunct (lower t)) [] w hw1 c hc
  rcases hmem with hmem | hmem
  · rw [mem_removePunct] at hmem
    exact ⟨hgood.2 c hc, hmem.2, isUpperAscii_of_mem_lower t c hmem.1⟩
  · simp at hmem

theorem clean_some_eq (t : List Char) (h : t ≠ []) :
    clean_text (some t) = stripWs (joinWords (cleanTokens t)) := by
  simp only [clean_text, if_neg h, cleanTokens]

theorem clean_some_eq_join (t : List Char) (h : t ≠ []) :
    clean_text (some t) = joinWords (cleanTokens t) := by
  rw [clean_some_eq t h]
  have hgood : ∀ w ∈ cleanTokens t, w ≠ [] ∧ ∀ c ∈ w, isSpace c = false :=
    fun w hw => ⟨(cleanTokens_good t w hw).1.1,
      fun c hc => ((cleanTokens_good t w hw).1.2 c hc).1⟩
  exact stripWs_eq_self _ (head?_joinWords _ hgood) (getLast?_joinWords _ hgood)

theorem clean_shape (x : Option (List Char)) :
    ∃ ws, clean_text x = joinWords ws ∧
      ∀ w ∈ ws,
        (w ≠ [] ∧ ∀ c ∈ w,
          isSpace c = false ∧ isPunct c = false ∧ isUpperAscii c = false) ∧
        stopWordsL.contains w = false := by
  cases x with
  | none => exact ⟨[], rfl, by simp⟩
  | some t =>
    by_cases h : t = []
    · subst h
      exact ⟨[], by decide, by simp⟩
    · exact ⟨cleanTokens t, clean_some_eq_join t h, cleanTokens_good t⟩

/-! ### The claims -/

/-- Claim C1: for every non-null, non-empty string input, `clean_text` equals
the reference pipeline of the spec: lowercase, delete every ASCII punctuation
character, split on runs of whitespace discarding empty tokens, drop
stop-word tokens, and join the remaining tokens with a single space in
original relative order. -/
theorem claim_C1 (t : List Char) (h : t ≠ []) :
    clean_text (some t) = cleanSpecPipeline t := by
  rw [clean_some_eq_join t h]
  unfold cleanTokens cleanSpecPipeline
  rw [removePunct_eq_filter]

theorem claim_C1_witness :
    "Help! I think i got my ribs fractured.".data ≠ [] ∧
    clean_text (some "Help! I think i got my ribs fractured.".data) =
      cleanSpecPipeline "Help! I think i got my ribs fractured.".data :=
  ⟨by decide, claim_C1 "Help! I think i got my ribs fractured.".data (by decide)⟩

/-- Claim C2: the stop-word list is exactly the 16 lowercase words
help, i, think, got, my, me, the, a, an, please, somebody, do, does, is,
am, are; and no token case-insensitively equal to one of them ever appears
in the output of `clean_text` as a standalone space-delimited token. -/
theorem claim_C2 :
    STOP_WORDS = ["help", "i", "think", "got", "my", "me", "the", "a", "an",
      "please", "somebody", "do", "does", "is", "am", "are"] ∧
    ∀ (x : Option (List Char)) (w : List Char),
      w ∈ splitWs (clean_text x) → stopWordsL.contains (lower w) = false := by
  refine ⟨rfl, ?_⟩
  intro x w hw
  obtain ⟨ws, hx, hgood⟩ := clean_shape x
  have hgood2 : ∀ u ∈ ws, u ≠ [] ∧ ∀ c ∈ u, isSpace c = false :=
    fun u hu => ⟨(hgood u hu).1.1, fun c hc => ((hgood u hu).1.2 c hc).1⟩
  rw [hx, splitWs_join ws hgood2] at hw
  have hlow : lower w = w :=
    lower_eq_self w (fun c hc => ((hgood w hw).1.2 c hc).2.2)
  rw [hlow]
  exact (hgood w hw).2

theorem claim_C2_witness :
    "ribs".data ∈
      splitWs (clean_text (some "Help! I think i got my ribs fractured.".data)) ∧
    stopWordsL.contains (lower "ribs".data) = false :=
  ⟨by decide, claim_C2.2 (some "Help! I think i got my ribs fractured.".data)
    "ribs".data (by decide)⟩

/-- Claim C3: punctuation characters are deleted, not replaced by a space,
so alphanumeric runs separated only by punctuation concatenate into one
token; in particular `clean_text "Don't stop." = "dont stop"`. -/
theorem claim_C3 (s₁ s₂ : List Char) (c : Char) (hc : isPunct c = true) :
    removePunct (s₁ ++ c :: s₂) = removePunct (s₁ ++ s₂) ∧
    clean_text (some "Don\x27t stop.".data) = "dont stop".data :=
  ⟨removePunct_append_punct s₁ s₂ c hc, by decide⟩

theorem claim_C3_witness :
    isPunct '-' = true ∧
    (removePunct ("good".data ++ '-' :: "bye".data) =
        removePunct ("good".data ++ "bye".data) ∧
      clean_text (some "Don\x27t stop.".data) = "dont stop".data) :=
  ⟨by decide, claim_C3 "good".data "bye".data '-' (by decide)⟩

/-- Claim C4: for every input, the output of `clean_text` contains no ASCII
punctuation character and no uppercase letter, has no leading or trailing
whitespace, and has no two consecutive space characters. -/
theorem claim_C4 (x : Option (List Char)) :
    (∀ c ∈ clean_text x, isPunct c = false ∧ isUpperAscii c = false) ∧
    (∀ a ∈ (clean_text x).head?, isSpace a = false) ∧
    (∀ a ∈ (clean_text x).getLast?, isSpace a = false) ∧
    List.Chain' (fun a b => ¬(a = ' ' ∧ b = ' ')) (clean_text x) := by
  obtain ⟨ws, hx, hgood⟩ := clean_shape x
  have hgood2 : ∀ u ∈ ws, u ≠ [] ∧ ∀ c ∈ u, isSpace c = false :=
    fun u hu => ⟨(hgood u hu).1.1, fun c hc => ((hgood u hu).1.2 c hc).1⟩
  rw [hx]
  refine ⟨?_, head?_joinWords ws hgood2, getLast?_joinWords ws hgood2,
    chain'_joinWords ws hgood2⟩
  intro c hc
  rcases mem_joinWords ws c hc with rfl | ⟨w, hw, hcw⟩
  · exact ⟨by decide, by decide⟩
  · exact ⟨((hgood w hw).1.2 c hcw).2.1, ((hgood w hw).1.2 c hcw).2.2⟩

theorem claim_C4_witness :
    'r' ∈ clean_text (some "Ribs!".data) ∧
    isPunct 'r' = false ∧ isUpperAscii 'r' = false :=
  ⟨by decide, (claim_C4 (some "Ribs!".data)).1 'r' (by decide)⟩

/-- Claim C5: an absent (`None`) input and the empty-string input both give
the empty string, immediately and without error. -/
theorem claim_C5 :
    clean_text none = "".data ∧ clean_text (some "".data) = "".data :=
  ⟨by decide, by decide⟩

/-- Claim C6: `clean_text` is idempotent; re-cleaning an already cleaned
string is a no-op. -/
theorem claim_C6 (x : Option (List Char)) :
    clean_text (some (clean_text x)) = clean_text x := by
  obtain ⟨ws, hx, hgood⟩ := clean_shape x
  have hgood2 : ∀ u ∈ ws, u ≠ [] ∧ ∀ c ∈ u, isSpace c = false :=
    fun u hu => ⟨(hgood u hu).1.1, fun c hc => ((hgood u hu).1.2 c hc).1⟩
  rw [hx]
  by_cases hws : joinWords ws = []
  · rw [hws]; decide
  · have hnoupper : ∀ c ∈ joinWords ws, isUpperAscii c = false := by
      intro c hc
      rcases mem_joinWords ws c hc with rfl | ⟨w, hw, hcw⟩
      · decide
      · exact ((hgood w hw).1.2 c hcw).2.2
    have hnopunct : ∀ c ∈ joinWords ws, isPunct c = false := by
      intro c hc
      rcases mem_joinWords ws c hc with rfl | ⟨w, hw, hcw⟩
      · decide
      · exact ((hgood w hw).1.2 c hcw).2.1
    simp only [clean_text, if_neg hws]
    rw [lower_eq_self _ hnoupper, removePunct_eq_self _ hnopunct]
    rw [splitWs_join ws hgood2]
    have hfilter : ws.filter (fun w => !(stopWordsL.contains w)) = ws := by
      rw [List.filter_eq_self]
      intro w hw
      show (!(stopWordsL.contains w)) = true
      rw [Bool.not_eq_true']
      exact (hgood w hw).2
    rw [hfilter]
    exact stripWs_eq_self _ (head?_joinWords ws hgood2)
      (getLast?_joinWords ws hgood2)

/-- Claim C7: the concrete examples of the spec:
`clean_text "Help! I think i got my ribs fractured." = "ribs fractured"`,
`clean_text "I have a minor cut on my finger." = "have minor cut on finger"`,
and `clean_text "   " = ""`. -/
theorem claim_C7 :
    clean_text (some "Help! I think i got my ribs fractured.".data) =
      "ribs fractured".data ∧
    clean_text (some "I have a minor cut on my finger.".data) =
      "have minor cut on finger".data ∧
    clean_text (some "   ".data) = "".data :=
  ⟨by decide, by decide, by decide⟩

/-- Claim C8: `clean_text` terminates on every input: it is a total
function, producing a defined output for every argument. -/
theorem claim_C8 (x : Option (List Char)) : ∃ y, clean_text x = y :=
  ⟨clean_text x, rfl⟩

/-- Claim C9: `clean_text` is deterministic and pure: its result depends
only on its input (and the fixed stop-word list); equal inputs give equal
outputs. -/
theorem claim_C9 (x y : Option (List Char)) (h : x = y) :
    clean_text x = clean_text y := by
  rw [h]

theorem claim_C9_witness :
    (some "Hi".data : Option (List Char)) = some "Hi".data ∧
    clean_text (some "Hi".data) = clean_text (some "Hi".data) :=
  ⟨rfl, claim_C9 (some "Hi".data) (some "Hi".data) rfl⟩

/-- Claim C10: every input consisting only of whitespace and ASCII
punctuation characters (so in particular non-empty ones, which pass the
initial guard) cleans to the empty string. -/
theorem claim_C10 (s : List Char)
    (h : ∀ c ∈ s, isSpace c = true ∨ isPunct c = true) :
    clean_text (some s) = [] := by
  by_cases hs : s = []
  · subst hs; decide
  · simp only [clean_text, if_neg hs]
    have hall : ∀ c ∈ removePunct (lower s), isSpace c = true := by
      intro c hc
      rw [mem_removePunct] at hc
      obtain ⟨hc1, hc2⟩ := hc
      simp only [lower, List.mem_map] at hc1
      obtain ⟨d, hd, rfl⟩ := hc1
      rcases h d hd with hd2 | hd2
      · rw [isSpace_lowerChar]; exact hd2
      · rw [isPunct_lowerChar, hd2] at hc2
        exact Bool.noConfusion hc2
    rw [show splitWs (removePunct (lower s)) = [] from
      splitWsAux_all_space _ hall]
    rfl

theorem claim_C10_witness :
    (∀ c ∈ "!!! ???".data, isSpace c = true ∨ isPunct c = true) ∧
    clean_text (some "!!! ???".data) = [] :=
  ⟨by decide, claim_C10 "!!! ???".data (by decide)⟩
